import Mathlib

/-!
Verification of the PDF auto-tagging engine (`autotag.py`).

The Python source is shallowly embedded below.  Content-stream bytes are
modelled as `List ℕ` (one entry per byte), decoded text as `List Char`
(latin-1 maps byte `b` to code point `b`), Python floats as `ℚ`
(all scores involved are small rationals whose float images compare the
same way), and Python `dict` records as structures.  The regex scans of
`insert_marked_content_by_bbox` and `extract_text_from_bt_et` are embedded
as the character-level state machines they denote (lazy groups, leftmost
non-overlapping matches, `.` not matching a newline except under DOTALL).
-/

set_option autoImplicit false

namespace Autotag

attribute [local semireducible] Rat.mul Rat.inv

/-! ### Generic string helpers (Python `str` operations on `List Char`) -/

/-- Python `str.strip()`: drop whitespace from both ends. -/
def trimChars (s : List Char) : List Char :=
  ((s.dropWhile Char.isWhitespace).reverse.dropWhile Char.isWhitespace).reverse

/-- Python `str.lower()` (ASCII behaviour of `Char.toLower`). -/
def lowerL (s : List Char) : List Char :=
  s.map Char.toLower

/-- Auxiliary accumulator loop for `wordsOf`. -/
def wordsAux (acc : List Char) : List Char → List (List Char)
  | [] => if acc = [] then [] else [acc.reverse]
  | c :: rest =>
    if c.isWhitespace then
      if acc = [] then wordsAux [] rest else acc.reverse :: wordsAux [] rest
    else wordsAux (c :: acc) rest

/-- Python `str.split()` with no separator: whitespace-separated tokens,
empty tokens dropped. -/
def wordsOf (s : List Char) : List (List Char) :=
  wordsAux [] s

/-- Python `needle in hay` on strings: contiguous substring test. -/
def isSubstr (needle : List Char) : List Char → Bool
  | [] => needle.isEmpty
  | c :: t => needle.isPrefixOf (c :: t) || isSubstr needle t

/-- Python `' '.join(parts)`. -/
def joinSpace : List (List Char) → List Char
  | [] => []
  | [x] => x
  | x :: xs => x ++ ' ' :: joinSpace xs

/-- Python slice `s[a:b]` (with `0 ≤ a ≤ b`). -/
def slice (s : List Char) (a b : ℕ) : List Char :=
  (s.take b).drop a

/-- `latin-1` decoding of a byte string: every byte value below 256 maps to
the character with that code point; the embedding returns `none` on an
out-of-range entry (the `except:` arm of the Python `try`). -/
def decodeLatin1 (bs : List ℕ) : Option (List Char) :=
  if bs.all (fun b => b < 256) then some (bs.map Char.ofNat) else none

/-- `latin-1` encoding back to bytes. -/
def encodeLatin1 (s : List Char) : List ℕ :=
  s.map Char.toNat

/-! ### Data model: `StructureItem` records produced by `analyze_layout` -/

/-- The `"type"` field of a structure item. -/
inductive Kind where
  | H1 : Kind
  | H2 : Kind
  | P : Kind
  | Table : Kind
deriving DecidableEq, Repr

/-- The string stored in the `"type"` field. -/
def kindTag : Kind → List Char
  | Kind.H1 => ['H', '1']
  | Kind.H2 => ['H', '2']
  | Kind.P => ['P']
  | Kind.Table => ['T', 'a', 'b', 'l', 'e']

/-- A table cell as built by `detect_tables` (the `"bbox"` entry is the
constant `None` in the source and is omitted). -/
structure Cell where
  text : List Char
  is_header : Bool
deriving DecidableEq, Repr

/-- A 4-tuple of coordinates: a PDF `bbox` `(x0, y0, x1, y1)` or a display
`rect` `[x, y, w, h]`. -/
structure Quad where
  q0 : ℚ
  q1 : ℚ
  q2 : ℚ
  q3 : ℚ
deriving DecidableEq, Repr

/-- One structure item dict.  `text` models `item.get("text", "")` (empty
for tables), `table_data` models `item.get("table_data", [])` (empty for
text items). -/
structure Item where
  page : ℕ := 1
  type : Kind
  text : List Char := []
  table_data : List (List Cell) := []
  bbox : Quad := ⟨0, 0, 0, 0⟩
  rect : Quad := ⟨0, 0, 0, 0⟩
deriving Repr

/-! ### Table extractor (`detect_tables`, inner per-table loop) -/

/-- Header row built from `extracted[0]`: falsy cells (Python `None` or
`""`, both modelled as `[]`) are skipped, kept cells are stripped and
marked `is_header = True`. -/
def headerCells (row : List (List Char)) : List Cell :=
  row.filterMap (fun c => if c = [] then none else some ⟨trimChars c, true⟩)

/-- Body row built from a row of `extracted[1:]`. -/
def bodyCells (row : List (List Char)) : List Cell :=
  row.filterMap (fun c => if c = [] then none else some ⟨trimChars c, false⟩)

/-- The per-table body of `detect_tables`: build the header row from row 0
and body rows from the remaining rows, dropping empty rows, and emit the
cell matrix only when `cells and len(cells) > 1`. -/
def extract_table (extracted : List (List (List Char))) : Option (List (List Cell)) :=
  match extracted with
  | [] => none
  | r0 :: rest =>
    let cells :=
      (if headerCells r0 = [] then [] else [headerCells r0]) ++
        rest.filterMap (fun r => if bodyCells r = [] then none else some (bodyCells r))
    if cells ≠ [] ∧ 1 < cells.length then some cells else none

/-- `detect_tables` over the whole page: one `(bbox, extract())` pair per
detection, failed extractions skipped. -/
def detect_tables (dets : List (Quad × List (List (List Char)))) :
    List (Quad × List (List Cell)) :=
  dets.filterMap (fun d => (extract_table d.2).map (fun cs => (d.1, cs)))

/-! ### Layout classifier (`analyze_layout`, per-block body) -/

/-- One span of `line["spans"]`: text, font size, and the flags word whose
bit 1 is the bold flag. -/
structure Span where
  text : List Char
  size : ℚ
  flags : ℕ
deriving Repr

/-- One raw text block of `page.get_text("dict")["blocks"]`; `lines = none`
models a block without a `"lines"` key (an image block). -/
structure Block where
  bbox : Quad
  lines : Option (List (List Span))
deriving Repr

/-- The containment test of a block bbox in a table bbox with the ±5
tolerance margin. -/
def block_in_table (bb tb : Quad) : Bool :=
  decide (tb.q0 - 5 ≤ bb.q0) && decide (tb.q1 - 5 ≤ bb.q1) &&
    decide (bb.q2 ≤ tb.q2 + 5) && decide (bb.q3 ≤ tb.q3 + 5)

/-- `block_text`: concatenation of every span text followed by `" "`. -/
def blockRawText (lines : List (List Span)) : List Char :=
  (lines.map (fun line => (line.map (fun sp => sp.text ++ [' '])).flatten)).flatten

/-- `max_font_size`: running maximum starting at 0. -/
def blockMaxFont (lines : List (List Span)) : ℚ :=
  lines.foldl (fun m line => line.foldl (fun m2 sp => max m2 sp.size) m) 0

/-- `is_bold`: some span has flag bit 1 set (`span["flags"] & 2`). -/
def blockIsBold (lines : List (List Span)) : Bool :=
  lines.any (fun line => line.any (fun sp => (sp.flags &&& 2) != 0))

/-- The per-block body of the `analyze_layout` page loop: skip blocks
without lines, blocks inside a table bbox and blocks with empty stripped
text, otherwise classify by font size / boldness and build the item. -/
def analyze_layout_block (height : ℚ) (tableBoxes : List Quad) (pageNum : ℕ)
    (b : Block) : Option Item :=
  match b.lines with
  | none => none
  | some lines =>
    if tableBoxes.any (fun t => block_in_table b.bbox t) then none
    else
      let btext := trimChars (blockRawText lines)
      if btext = [] then none
      else
        let sz := blockMaxFont lines
        let bold := blockIsBold lines
        let ty := if 14 < sz then Kind.H1 else if 12 < sz ∨ bold = true then Kind.H2 else Kind.P
        some { page := pageNum + 1, type := ty, text := btext, bbox := b.bbox,
               rect := ⟨b.bbox.q0, height - b.bbox.q3, b.bbox.q2 - b.bbox.q0,
                        b.bbox.q3 - b.bbox.q1⟩ }

/-! ### Content-stream scan: the regex `BT\s+.*?ET` (with DOTALL)

`re.finditer` yields the leftmost, non-overlapping matches.  A match
starting at `a` needs `"BT"` at `a`, a whitespace character at `a + 2`
(the mandatory `\s+`), and ends just after the first `"ET"` occurring at
position `≥ a + 3` (no `"ET"` can begin inside the whitespace run, so lazy
`.*?` stops at the first `"ET"` after the run).  If no `"ET"` follows, no
later start can match either, since any later start would need an `"ET"`
after it.  The scan below walks the characters once; the state carries the
pending match start while searching for `"ET"`. -/

/-- Head-of-list whitespace test (lookahead used by the scanner). -/
def headIsWS : List Char → Bool
  | [] => false
  | c :: _ => c.isWhitespace

/-- Head-of-list character test. -/
def headIs (x : Char) : List Char → Bool
  | [] => false
  | c :: _ => c = x

/-- One-pass scan for the spans of `re.finditer(r'(BT\s+.*?ET)', s, re.DOTALL)`.
`p` is the absolute position of the list head; the third argument is `some a`
while an `"ET"` is being searched for a match that began at `a`. -/
def scanBTET : List Char → ℕ → Option ℕ → List (ℕ × ℕ)
  | [], _, _ => []
  | c :: rest, p, none =>
    if c = 'B' ∧ headIs 'T' rest ∧ headIsWS rest.tail then
      scanBTET rest (p + 1) (some p)
    else
      scanBTET rest (p + 1) none
  | c :: rest, p, some a =>
    if c = 'E' ∧ headIs 'T' rest then
      (a, p + 2) :: scanBTET rest (p + 1) none
    else
      scanBTET rest (p + 1) (some a)

/-- `matches = list(re.finditer(bt_et_pattern, content_str, re.DOTALL))`,
as the list of `(start, end)` spans. -/
def findMatches (s : List Char) : List (ℕ × ℕ) :=
  scanBTET s 0 none

/-! ### Text extraction: the regexes of `extract_text_from_bt_et`

`\((.*?)\)\s*Tj` (and `\[(.*?)\]\s*TJ`) without DOTALL: the lazy group
cannot cross a newline; a close bracket inside the group is a candidate
end and, when `\s*` + the operator does not follow it, is re-absorbed into
the group; when a match attempt dies at a newline, no skipped start can
succeed before that newline either (every close bracket in between was
already tested with the same position-local test), so the scan resumes at
the current character.  The machine below implements that, parametrised by
the bracket pair and the two operator letters. -/

/-- Scanner state: outside any group, inside the lazy group (accumulated
characters reversed), just past a candidate close bracket (with the
reversed whitespace run consumed by `\s*`), or past the first operator
letter. -/
inductive OpState where
  | outAll : OpState
  | inGroup : List Char → OpState
  | afterClose : List Char → List Char → OpState
  | afterO1 : List Char → List Char → OpState

/-- Processing a character outside a group: an open bracket starts one. -/
def outsideStep (oc c : Char) : OpState :=
  if c = oc then OpState.inGroup [] else OpState.outAll

/-- Processing a character inside the lazy group: a close bracket becomes a
candidate match end, a newline kills the attempt (the group `.` cannot
match it), anything else is group content. -/
def inGroupStep (cc : Char) (acc : List Char) (c : Char) : OpState :=
  if c = cc then OpState.afterClose acc []
  else if c = '\n' then OpState.outAll
  else OpState.inGroup (c :: acc)

/-- One transition of the operator-string scanner; emits a captured group
on success. -/
def opStep (oc cc o1 o2 : Char) : OpState → Char → OpState × Option (List Char)
  | OpState.outAll, c => (outsideStep oc c, none)
  | OpState.inGroup acc, c => (inGroupStep cc acc c, none)
  | OpState.afterClose acc pending, c =>
    if c.isWhitespace then (OpState.afterClose acc (c :: pending), none)
    else if c = o1 then (OpState.afterO1 acc pending, none)
    else if pending.contains '\n' then (outsideStep oc c, none)
    else (inGroupStep cc (pending ++ cc :: acc) c, none)
  | OpState.afterO1 acc pending, c =>
    if c = o2 then (OpState.outAll, some acc.reverse)
    else if pending.contains '\n' then (outsideStep oc c, none)
    else (inGroupStep cc (o1 :: pending ++ cc :: acc) c, none)

/-- Run the scanner over the string, collecting captured groups in order. -/
def opScan (oc cc o1 o2 : Char) : List Char → OpState → List (List Char)
  | [], _ => []
  | c :: rest, st =>
    match opStep oc cc o1 o2 st c with
    | (st2, some g) => g :: opScan oc cc o1 o2 rest st2
    | (st2, none) => opScan oc cc o1 o2 rest st2

/-- Captured groups of `re.finditer(r'\((.*?)\)\s*Tj', block)`. -/
def scanTj (block : List Char) : List (List Char) :=
  opScan '(' ')' 'T' 'j' block OpState.outAll

/-- Captured groups of `re.finditer(r'\[(.*?)\]\s*TJ', block)`. -/
def scanTJArr (block : List Char) : List (List Char) :=
  opScan '[' ']' 'T' 'J' block OpState.outAll

/-- Scan for `\((.*?)\)` inside an array group: same lazy-group rules, with
no operator suffix, so the first close paren always ends a match. -/
def parenScan : List Char → Option (List Char) → List (List Char)
  | [], _ => []
  | c :: rest, none => parenScan rest (if c = '(' then some [] else none)
  | c :: rest, some acc =>
    if c = ')' then acc.reverse :: parenScan rest none
    else if c = '\n' then parenScan rest none
    else parenScan rest (some (c :: acc))

/-- `extract_text_from_bt_et`: all `Tj` string operands, then all string
operands inside `TJ` arrays, joined with single spaces and stripped. -/
def extract_text_from_bt_et (block : List Char) : List Char :=
  trimChars (joinSpace
    (scanTj block ++ ((scanTJArr block).map (fun a => parenScan a none)).flatten))

/-! ### The matcher `find_best_match` -/

/-- Rule 2's similarity: `len(set(a.split()) & set(b.split())) /
max(len(a.split()), len(b.split()))`.  Note the denominator counts tokens
with multiplicity, exactly as the source does. -/
def wordSim (a b : List Char) : ℚ :=
  (((wordsOf a).toFinset ∩ (wordsOf b).toFinset).card : ℚ) /
    ((max (wordsOf a).length (wordsOf b).length : ℕ) : ℚ)

/-- The loop body of `find_best_match` updating `(best_match_idx,
best_similarity)` for the candidate at absolute index `idx` with lowered
stripped text `il` (the run's lowered text is `tl`): the containment score
first, then the 20-character prefix score of 0.8, each kept only when it
strictly beats the current best. -/
def stepPair (tl : List Char) (idx : ℕ) (il : List Char) (b : Option ℕ) (s : ℚ) :
    Option ℕ × ℚ :=
  let p1 : Option ℕ × ℚ :=
    if isSubstr il tl || isSubstr tl il then
      if s < wordSim tl il then (some idx, wordSim tl il) else (b, s)
    else (b, s)
  if (il.take 20).isPrefixOf tl then
    if p1.2 < 4 / 5 then (some idx, 4 / 5) else p1
  else p1

/-- The `for idx, item in enumerate(items_for_page)` loop of
`find_best_match`: skip consumed indices, tables and empty item texts,
return immediately on a case-insensitive exact equality, otherwise fold
`stepPair` and finally return the best index only when the best similarity
exceeds 0.3. -/
def findBestAux (tl : List Char) (used : Finset ℕ) :
    List Item → ℕ → Option ℕ → ℚ → Option ℕ
  | [], _, b, s => if 3 / 10 < s then b else none
  | it :: rest, idx, b, s =>
    if idx ∈ used ∨ it.type = Kind.Table ∨ trimChars it.text = [] then
      findBestAux tl used rest (idx + 1) b s
    else
      if tl = lowerL (trimChars it.text) then some idx
      else
        findBestAux tl used rest (idx + 1)
          (stepPair tl idx (lowerL (trimChars it.text)) b s).1
          (stepPair tl idx (lowerL (trimChars it.text)) b s).2

/-- `find_best_match(text_block_text, items_for_page, used_indices)`. -/
def find_best_match (text : List Char) (items : List Item) (used : Finset ℕ) :
    Option ℕ :=
  if text = [] then none else findBestAux (lowerL text) used items 0 none 0

/-- The effective score the loop assigns to one candidate with lowered
stripped item text `il`: the larger of the containment score (when one
lowered string contains the other) and the 0.8 prefix score (when the run
text starts with the item text's first 20 characters).  `findBestAux`
keeps a running maximum of exactly these per-candidate scores. -/
def candScoreL (tl il : List Char) : ℚ :=
  max (if isSubstr il tl || isSubstr tl il then wordSim tl il else 0)
    (if (il.take 20).isPrefixOf tl then 4 / 5 else 0)

/-- The effective score of a candidate item. -/
def candScore (tl : List Char) (it : Item) : ℚ :=
  candScoreL tl (lowerL (trimChars it.text))

/-- Eligibility of the item at index `k` for matching a run: present, not
yet consumed, not a table, and with non-empty stripped text. -/
def Eligible (items : List Item) (used : Finset ℕ) (k : ℕ) (kt : Item) : Prop :=
  items[k]? = some kt ∧ k ∉ used ∧ kt.type ≠ Kind.Table ∧ trimChars kt.text ≠ []

/-! ### Content-stream rewriter (`insert_marked_content_by_bbox`) -/

/-- The matching pass over the `BT…ET` spans: each span's text is extracted
and matched against the not-yet-consumed items, threading `used_indices`. -/
def computeMatches (s : List Char) (items : List Item) :
    List (ℕ × ℕ) → Finset ℕ → List ((ℕ × ℕ) × Option ℕ)
  | [], _ => []
  | sp :: rest, used =>
    match find_best_match (extract_text_from_bt_et (slice s sp.1 sp.2)) items used with
    | some j => (sp, some j) :: computeMatches s items rest (insert j used)
    | none => (sp, none) :: computeMatches s items rest used

/-- `items_for_page[item_idx]["type"]` (total; the matcher only ever
returns in-range indices). -/
def typeAt (items : List Item) (j : ℕ) : Kind :=
  match items.get? j with
  | some it => it.type
  | none => Kind.P

/-- The inserted `f"/{tag_type} <</MCID {mcid}>> BDC\n"` prefix. -/
def bdcStr (k : Kind) (mcid : ℕ) : List Char :=
  '/' :: kindTag k ++ (" <</MCID ".data ++ ((Nat.repr mcid).data ++ ">> BDC\n".data))

/-- The inserted `"\nEMC"` suffix. -/
def emcStr : List Char :=
  '\n' :: ['E', 'M', 'C']

/-- The reassembly loop: copy the bytes before each span, wrap a matched
span in `BDC`/`EMC` with the item index as MCID, copy an unmatched span
verbatim, and copy the trailing bytes. -/
def rewriteLoop (s : List Char) (items : List Item) :
    List ((ℕ × ℕ) × Option ℕ) → ℕ → List Char
  | [], lastEnd => s.drop lastEnd
  | (sp, o) :: rest, lastEnd =>
    slice s lastEnd sp.1 ++
      (match o with
       | some j => bdcStr (typeAt items j) j ++ slice s sp.1 sp.2 ++ emcStr
       | none => slice s sp.1 sp.2) ++
      rewriteLoop s items rest sp.2

/-- `insert_marked_content_by_bbox(content_bytes, items_for_page)`: return
the bytes unchanged when they do not decode or contain no `BT…ET` region,
otherwise re-encode the rewritten text. -/
def insert_marked_content_by_bbox (content : List ℕ) (items : List Item) : List ℕ :=
  match decodeLatin1 content with
  | none => content
  | some s =>
    let ms := findMatches s
    if ms = [] then content
    else encodeLatin1 (rewriteLoop s items (computeMatches s items ms ∅) 0)

/-- The MCID values carried by the `BDC` operators of the rewritten stream,
in emission order: the matched item indices of the matching pass. -/
def emittedMCIDs (content : List ℕ) (items : List Item) : List ℕ :=
  match decodeLatin1 content with
  | none => []
  | some s => (computeMatches s items (findMatches s) ∅).filterMap (fun x => x.2)

/-! ### Observables used to state the rewriter's frame property -/

/-- Spans chained between `lo` and `hi`: each span starts at or after the
previous position, ends strictly after it starts, and the chain ends at or
before `hi`. -/
def Chain : ℕ → List (ℕ × ℕ) → ℕ → Prop
  | lo, [], hi => lo ≤ hi
  | lo, sp :: rest, hi => lo ≤ sp.1 ∧ sp.1 < sp.2 ∧ Chain sp.2 rest hi

/-- The gap slices around a span list: the bytes before the first span,
between consecutive spans, and after the last span. -/
def gapList (s : List Char) : ℕ → List (ℕ × ℕ) → List (List Char)
  | lo, [] => [s.drop lo]
  | lo, sp :: rest => slice s lo sp.1 :: gapList s sp.2 rest

/-- The run slices themselves. -/
def runList (s : List Char) (spans : List (ℕ × ℕ)) : List (List Char) :=
  spans.map (fun sp => slice s sp.1 sp.2)

/-- Interleave gaps and runs: `g0 ++ r0 ++ g1 ++ r1 ++ … ++ gn`. -/
def interleaveJoin : List (List Char) → List (List Char) → List Char
  | [], _ => []
  | g :: _, [] => g
  | g :: gs, r :: rs => g ++ r ++ interleaveJoin gs rs

/-- The bytes one span contributes to the rewritten stream: wrapped in
`BDC`/`EMC` when matched, verbatim otherwise. -/
def wrapRun (s : List Char) (items : List Item) (x : (ℕ × ℕ) × Option ℕ) : List Char :=
  match x.2 with
  | some j => bdcStr (typeAt items j) j ++ slice s x.1.1 x.1.2 ++ emcStr
  | none => slice s x.1.1 x.1.2

/-! ### Structure tree builder (`apply_tagging`, per-page element loop)

Only the MCID bookkeeping is embedded: the loop walks the page's items
with a running counter that starts at 0; a table item consumes one MCID
per cell (row by row), any other item consumes one MCID. -/

/-- MCIDs referenced by the `TH`/`TD` elements of one row, starting at `c`. -/
def rowRefs : List Cell → ℕ → List ℕ
  | [], _ => []
  | _ :: cs, c => c :: rowRefs cs (c + 1)

/-- MCIDs referenced by all cells of a table, row by row. -/
def tableRefs : List (List Cell) → ℕ → List ℕ
  | [], _ => []
  | r :: rs, c => rowRefs r c ++ tableRefs rs (c + r.length)

/-- MCIDs referenced by the structure elements built for the page's items,
in creation order, with counter `c`. -/
def buildRefs : List Item → ℕ → List ℕ
  | [], _ => []
  | it :: rest, c =>
    if it.type = Kind.Table then
      tableRefs it.table_data c ++ buildRefs rest (c + (it.table_data.map List.length).sum)
    else
      c :: buildRefs rest (c + 1)

/-- All MCIDs referenced by the page's structure elements
(`mcid_counter` starts at 0). -/
def referencedMCIDs (items : List Item) : List ℕ :=
  buildRefs items 0

/-- Number of MCIDs one item consumes from the counter. -/
def itemMCIDCount (it : Item) : ℕ :=
  if it.type = Kind.Table then (it.table_data.map List.length).sum else 1

/-- Total number of MCIDs the builder allocates on the page. -/
def totalMCIDCount (items : List Item) : ℕ :=
  (items.map itemMCIDCount).sum

lemma wordSim_nonneg (a b : List Char) : 0 ≤ wordSim a b := by
  unfold wordSim
  positivity

lemma candScoreL_nonneg (tl il : List Char) : 0 ≤ candScoreL tl il := by
  unfold candScoreL
  apply le_max_of_le_right
  split <;> norm_num

lemma stepPair_cases (tl : List Char) (idx : ℕ) (il : List Char) (b : Option ℕ) (s : ℚ) :
    stepPair tl idx il b s = (b, s) ∨
      ((stepPair tl idx il b s).1 = some idx ∧
        (stepPair tl idx il b s).2 ≤ candScoreL tl il) := by
  have hw := wordSim_nonneg tl il
  unfold stepPair candScoreL
  split_ifs <;> dsimp only <;> (try split_ifs) <;>
    simp_all [le_max_iff, le_refl, le_of_lt]

lemma stepPair_snd (tl : List Char) (idx : ℕ) (il : List Char) (b : Option ℕ) (s : ℚ)
    (hs : 0 ≤ s) : (stepPair tl idx il b s).2 = max s (candScoreL tl il) := by
  have hw := wordSim_nonneg tl il
  unfold stepPair candScoreL
  split_ifs <;> dsimp only <;> (try split_ifs) <;>
    simp only [max_def] <;> split_ifs <;> first | rfl | linarith

lemma add_shift (idx k : ℕ) : idx + (k + 1) = idx + 1 + k := by omega

lemma findBestAux_sound (tl : List Char) (used : Finset ℕ) (R : ℕ → Prop)
    (items : List Item) :
    ∀ (idx : ℕ) (b : Option ℕ) (s : ℚ),
      (∀ j, b = some j → 3 / 10 < s → R j) →
      (∀ k kt, items[k]? = some kt → (idx + k) ∉ used → kt.type ≠ Kind.Table →
        trimChars kt.text ≠ [] →
        (lowerL (trimChars kt.text) = tl ∨ 3 / 10 < candScore tl kt) → R (idx + k)) →
      ∀ j, findBestAux tl used items idx b s = some j → R j := by
  induction items with
  | nil =>
    intro idx b s hb hcand j hres
    simp only [findBestAux] at hres
    by_cases h3 : 3 / 10 < s
    · rw [if_pos h3] at hres
      exact hb j hres h3
    · rw [if_neg h3] at hres
      exact absurd hres (by simp)
  | cons it rest ih =>
    intro idx b s hb hcand j hres
    simp only [findBestAux] at hres
    by_cases hskip : idx ∈ used ∨ it.type = Kind.Table ∨ trimChars it.text = []
    · rw [if_pos hskip] at hres
      refine ih (idx + 1) b s hb ?_ j hres
      intro k kt hk hu hT hn hor
      rw [← add_shift] at hu ⊢
      exact hcand (k + 1) kt (by simpa using hk) hu hT hn hor
    · rw [if_neg hskip] at hres
      push_neg at hskip
      obtain ⟨hu0, hT0, hn0⟩ := hskip
      by_cases heq : tl = lowerL (trimChars it.text)
      · rw [if_pos heq] at hres
        have hj : idx = j := by simpa using hres
        subst hj
        have := hcand 0 it (by simp) (by simpa using hu0) hT0 hn0 (Or.inl heq.symm)
        simpa using this
      · rw [if_neg heq] at hres
        refine ih (idx + 1) _ _ ?_ ?_ j hres
        · intro j' hj' hlt
          rcases stepPair_cases tl idx (lowerL (trimChars it.text)) b s with hc | ⟨h1, h2⟩
          · rw [hc] at hj' hlt
            exact hb j' hj' hlt
          · rw [h1] at hj'
            have hj'' : idx = j' := by simpa using hj'
            subst hj''
            have hsc : 3 / 10 < candScore tl it := lt_of_lt_of_le hlt h2
            have := hcand 0 it (by simp) (by simpa using hu0) hT0 hn0 (Or.inr hsc)
            simpa using this
        · intro k kt hk hu hT hn hor
          rw [← add_shift] at hu ⊢
          exact hcand (k + 1) kt (by simpa using hk) hu hT hn hor

lemma findBestAux_none (tl : List Char) (used : Finset ℕ) (items : List Item) :
    ∀ (idx : ℕ) (b : Option ℕ) (s : ℚ), 0 ≤ s → (b = none → s ≤ 3 / 10) →
      findBestAux tl used items idx b s = none →
      s ≤ 3 / 10 ∧
        ∀ k kt, items[k]? = some kt → (idx + k) ∉ used → kt.type ≠ Kind.Table →
          trimChars kt.text ≠ [] →
          candScore tl kt ≤ 3 / 10 ∧ lowerL (trimChars kt.text) ≠ tl := by
  induction items with
  | nil =>
    intro idx b s hs hb0 hres
    simp only [findBestAux] at hres
    by_cases h3 : 3 / 10 < s
    · rw [if_pos h3] at hres
      exact absurd (hb0 hres) (by linarith)
    · exact ⟨by linarith, by intro k kt hk; simp at hk⟩
  | cons it rest ih =>
    intro idx b s hs hb0 hres
    simp only [findBestAux] at hres
    by_cases hskip : idx ∈ used ∨ it.type = Kind.Table ∨ trimChars it.text = []
    · rw [if_pos hskip] at hres
      obtain ⟨h1, h2⟩ := ih (idx + 1) b s hs hb0 hres
      refine ⟨h1, ?_⟩
      intro k kt hk hu hT hn
      match k, hk with
      | 0, hk =>
        have hkt : it = kt := by simpa using hk
        subst hkt
        simp only [Nat.add_zero] at hu
        rcases hskip with h | h | h
        · exact absurd h hu
        · exact absurd h hT
        · exact absurd h hn
      | k + 1, hk =>
        rw [add_shift] at hu
        exact h2 k kt (by simpa using hk) hu hT hn
    · rw [if_neg hskip] at hres
      push_neg at hskip
      obtain ⟨hu0, hT0, hn0⟩ := hskip
      by_cases heq : tl = lowerL (trimChars it.text)
      · rw [if_pos heq] at hres
        exact absurd hres (by simp)
      · rw [if_neg heq] at hres
        have hsnd := stepPair_snd tl idx (lowerL (trimChars it.text)) b s hs
        have hs2 : 0 ≤ (stepPair tl idx (lowerL (trimChars it.text)) b s).2 := by
          rw [hsnd]; exact le_max_of_le_left hs
        have hb02 : (stepPair tl idx (lowerL (trimChars it.text)) b s).1 = none →
            (stepPair tl idx (lowerL (trimChars it.text)) b s).2 ≤ 3 / 10 := by
          intro hnone
          rcases stepPair_cases tl idx (lowerL (trimChars it.text)) b s with hc | ⟨h1, _⟩
          · rw [hc] at hnone ⊢
            exact hb0 hnone
          · rw [h1] at hnone
            exact absurd hnone (by simp)
        obtain ⟨h1, h2⟩ := ih (idx + 1) _ _ hs2 hb02 hres
        rw [hsnd, max_le_iff] at h1
        refine ⟨h1.1, ?_⟩
        intro k kt hk hu hT hn
        match k, hk with
        | 0, hk =>
          have hkt : it = kt := by simpa using hk
          subst hkt
          exact ⟨h1.2, fun h => heq h.symm⟩
        | k + 1, hk =>
          rw [add_shift] at hu
          exact h2 k kt (by simpa using hk) hu hT hn

lemma findBestAux_max (tl : List Char) (used : Finset ℕ) (CS : ℕ → ℚ)
    (items : List Item) :
    ∀ (idx : ℕ) (b : Option ℕ) (s : ℚ), 0 ≤ s →
      (∀ k kt, items[k]? = some kt → CS (idx + k) = candScore tl kt) →
      (∀ k kt, items[k]? = some kt → (idx + k) ∉ used → kt.type ≠ Kind.Table →
        trimChars kt.text ≠ [] → lowerL (trimChars kt.text) ≠ tl) →
      (∀ j, b = some j → s ≤ CS j) →
      ∀ j, findBestAux tl used items idx b s = some j →
        s ≤ CS j ∧
          ∀ k kt, items[k]? = some kt → (idx + k) ∉ used → kt.type ≠ Kind.Table →
            trimChars kt.text ≠ [] → candScore tl kt ≤ CS j := by
  induction items with
  | nil =>
    intro idx b s hs hCS hnoex hbs j hres
    simp only [findBestAux] at hres
    by_cases h3 : 3 / 10 < s
    · rw [if_pos h3] at hres
      exact ⟨hbs j hres, by intro k kt hk; simp at hk⟩
    · rw [if_neg h3] at hres
      exact absurd hres (by simp)
  | cons it rest ih =>
    intro idx b s hs hCS hnoex hbs j hres
    simp only [findBestAux] at hres
    by_cases hskip : idx ∈ used ∨ it.type = Kind.Table ∨ trimChars it.text = []
    · rw [if_pos hskip] at hres
      obtain ⟨h1, h2⟩ := ih (idx + 1) b s hs
        (fun k kt hk => by rw [← add_shift]; exact hCS (k + 1) kt (by simpa using hk))
        (fun k kt hk hu => by
          rw [← add_shift] at hu
          exact hnoex (k + 1) kt (by simpa using hk) hu)
        hbs j hres
      refine ⟨h1, ?_⟩
      intro k kt hk hu hT hn
      match k, hk with
      | 0, hk =>
        have hkt : it = kt := by simpa using hk
        subst hkt
        simp only [Nat.add_zero] at hu
        rcases hskip with h | h | h
        · exact absurd h hu
        · exact absurd h hT
        · exact absurd h hn
      | k + 1, hk =>
        rw [add_shift] at hu
        exact h2 k kt (by simpa using hk) hu hT hn
    · rw [if_neg hskip] at hres
      push_neg at hskip
      obtain ⟨hu0, hT0, hn0⟩ := hskip
      by_cases heq : tl = lowerL (trimChars it.text)
      · exact absurd heq.symm
          (hnoex 0 it (by simp) (by simpa using hu0) hT0 hn0)
      · rw [if_neg heq] at hres
        have hsnd := stepPair_snd tl idx (lowerL (trimChars it.text)) b s hs
        have hCS0 : CS idx = candScore tl it := by
          have := hCS 0 it (by simp)
          simpa using this
        have hs2 : 0 ≤ (stepPair tl idx (lowerL (trimChars it.text)) b s).2 := by
          rw [hsnd]; exact le_max_of_le_left hs
        have hbs2 : ∀ j', (stepPair tl idx (lowerL (trimChars it.text)) b s).1 = some j' →
            (stepPair tl idx (lowerL (trimChars it.text)) b s).2 ≤ CS j' := by
          intro j' hj'
          rcases stepPair_cases tl idx (lowerL (trimChars it.text)) b s with hc | ⟨hp1, hp2⟩
          · rw [hc] at hj' ⊢
            exact hbs j' hj'
          · rw [hp1] at hj'
            have : idx = j' := by simpa using hj'
            subst this
            rw [hCS0]
            exact hp2
        obtain ⟨h1, h2⟩ := ih (idx + 1) _ _ hs2
          (fun k kt hk => by rw [← add_shift]; exact hCS (k + 1) kt (by simpa using hk))
          (fun k kt hk hu => by
            rw [← add_shift] at hu
            exact hnoex (k + 1) kt (by simpa using hk) hu)
          hbs2 j hres
        rw [hsnd, max_le_iff] at h1
        refine ⟨h1.1, ?_⟩
        intro k kt hk hu hT hn
        match k, hk with
        | 0, hk =>
          have hkt : it = kt := by simpa using hk
          subst hkt
          exact h1.2
        | k + 1, hk =>
          rw [add_shift] at hu
          exact h2 k kt (by simpa using hk) hu hT hn

lemma findBestAux_exact (tl : List Char) (used : Finset ℕ) (items : List Item) :
    ∀ (idx : ℕ) (b : Option ℕ) (s : ℚ) (k : ℕ) (kt : Item),
      items[k]? = some kt → (idx + k) ∉ used → kt.type ≠ Kind.Table →
      trimChars kt.text ≠ [] → lowerL (trimChars kt.text) = tl →
      ∃ m mt, findBestAux tl used items idx b s = some (idx + m) ∧
        items[m]? = some mt ∧ (idx + m) ∉ used ∧ mt.type ≠ Kind.Table ∧
        trimChars mt.text ≠ [] ∧ lowerL (trimChars mt.text) = tl := by
  induction items with
  | nil =>
    intro idx b s k kt hk
    simp at hk
  | cons it rest ih =>
    intro idx b s k kt hk hu hT hn heq
    match k, hk with
    | 0, hk =>
      have hkt : it = kt := by simpa using hk
      subst hkt
      simp only [Nat.add_zero] at hu
      have hskip : ¬(idx ∈ used ∨ it.type = Kind.Table ∨ trimChars it.text = []) := by
        push_neg
        exact ⟨hu, hT, hn⟩
      refine ⟨0, it, ?_, by simp, by simpa using hu, hT, hn, heq⟩
      simp only [findBestAux]
      rw [if_neg hskip, if_pos heq.symm]
      simp
    | k + 1, hk =>
      rw [add_shift] at hu
      by_cases hskip : idx ∈ used ∨ it.type = Kind.Table ∨ trimChars it.text = []
      · obtain ⟨m, mt, hres, hm, hmu, hmT, hmn, hmeq⟩ :=
          ih (idx + 1) b s k kt (by simpa using hk) hu hT hn heq
        rw [← add_shift] at hres hmu
        refine ⟨m + 1, mt, ?_, by simpa using hm, hmu, hmT, hmn, hmeq⟩
        simp only [findBestAux]
        rw [if_pos hskip]
        exact hres
      · push_neg at hskip
        obtain ⟨hu0, hT0, hn0⟩ := hskip
        by_cases heq0 : tl = lowerL (trimChars it.text)
        · refine ⟨0, it, ?_, by simp, by simpa using hu0, hT0, hn0, heq0.symm⟩
          simp only [findBestAux]
          rw [if_neg (by push_neg; exact ⟨hu0, hT0, hn0⟩), if_pos heq0]
          simp
        · obtain ⟨m, mt, hres, hm, hmu, hmT, hmn, hmeq⟩ :=
            ih (idx + 1) (stepPair tl idx (lowerL (trimChars it.text)) b s).1
              (stepPair tl idx (lowerL (trimChars it.text)) b s).2
              k kt (by simpa using hk) hu hT hn heq
          rw [← add_shift] at hres hmu
          refine ⟨m + 1, mt, ?_, by simpa using hm, hmu, hmT, hmn, hmeq⟩
          simp only [findBestAux]
          rw [if_neg (by push_neg; exact ⟨hu0, hT0, hn0⟩), if_neg heq0]
          exact hres

lemma find_best_match_sound (text : List Char) (items : List Item) (used : Finset ℕ)
    (j : ℕ) (hres : find_best_match text items used = some j) :
    ∃ jt, Eligible items used j jt ∧
      (lowerL (trimChars jt.text) = lowerL text ∨
        3 / 10 < candScore (lowerL text) jt) := by
  by_cases htext : text = []
  · unfold find_best_match at hres
    rw [if_pos htext] at hres
    exact absurd hres (by simp)
  · unfold find_best_match at hres
    rw [if_neg htext] at hres
    refine findBestAux_sound (lowerL text) used
      (fun j => ∃ jt, Eligible items used j jt ∧
        (lowerL (trimChars jt.text) = lowerL text ∨
          3 / 10 < candScore (lowerL text) jt))
      items 0 none 0 (by intro j' hj'; simp at hj') ?_ j hres
    intro k kt hk hu hT hn hor
    simp only [Nat.zero_add] at hu ⊢
    exact ⟨kt, ⟨hk, hu, hT, hn⟩, hor⟩

/-- C3: whenever some eligible structure item's stripped text is
case-insensitively equal to the run text, `find_best_match` returns a
match, and the matched item has that exact equality — regardless of any
other candidate's partial or prefix score and of the 0.3 threshold. -/
theorem exact_match_always_wins (text : List Char) (items : List Item)
    (used : Finset ℕ) (i : ℕ) (it : Item) (hne : text ≠ [])
    (hel : Eligible items used i it)
    (heq : lowerL (trimChars it.text) = lowerL text) :
    ∃ m mt, find_best_match text items used = some m ∧
      Eligible items used m mt ∧ lowerL (trimChars mt.text) = lowerL text := by
  obtain ⟨hi, hu, hT, hn⟩ := hel
  unfold find_best_match
  rw [if_neg hne]
  obtain ⟨m, mt, hres, hm, hmu, hmT, hmn, hmeq⟩ :=
    findBestAux_exact (lowerL text) used items 0 none 0 i it hi
      (by simpa using hu) hT hn heq
  exact ⟨m, mt, by simpa using hres, ⟨hm, by simpa using hmu, hmT, hmn⟩, hmeq⟩

/-- C3 witness. -/
theorem exact_match_always_wins_witness :
    ("HeLLo".data ≠ ([] : List Char)) ∧
    (∃ m mt, find_best_match "HeLLo".data
        [{ type := Kind.P, text := " hello ".data }] ∅ = some m ∧
      Eligible [{ type := Kind.P, text := " hello ".data }] ∅ m mt ∧
      lowerL (trimChars mt.text) = lowerL "HeLLo".data) := by
  refine ⟨by decide, ?_⟩
  exact exact_match_always_wins "HeLLo".data _ ∅ 0 _ (by decide)
    ⟨rfl, by decide, by decide, by decide⟩ (by decide)

/-- C4: the matcher's threshold/argmax behaviour.  (1) An empty run text
never matches.  (2) Any returned index is eligible and is either an exact
match or scores above 0.3.  (3) When no eligible item is an exact match, a
returned index scores above 0.3 and at least as high as every eligible
candidate.  (4) When the matcher returns nothing, every eligible candidate
scored at most 0.3 (and none was exact).  (5) An eligible pair that is not
exact, has word-overlap ratio at most 0.3 and fails the 20-character
prefix test is never the returned match. -/
theorem best_match_threshold (text : List Char) (items : List Item) (used : Finset ℕ) :
    (find_best_match [] items used = none) ∧
    (∀ j, find_best_match text items used = some j →
      ∃ jt, Eligible items used j jt ∧
        (lowerL (trimChars jt.text) = lowerL text ∨
          3 / 10 < candScore (lowerL text) jt)) ∧
    ((∀ k kt, Eligible items used k kt → lowerL (trimChars kt.text) ≠ lowerL text) →
      ∀ j, find_best_match text items used = some j →
        ∃ jt, Eligible items used j jt ∧ 3 / 10 < candScore (lowerL text) jt ∧
          ∀ k kt, Eligible items used k kt →
            candScore (lowerL text) kt ≤ candScore (lowerL text) jt) ∧
    (text ≠ [] → find_best_match text items used = none →
      ∀ k kt, Eligible items used k kt →
        candScore (lowerL text) kt ≤ 3 / 10 ∧
          lowerL (trimChars kt.text) ≠ lowerL text) ∧
    (∀ j jt, Eligible items used j jt →
      lowerL (trimChars jt.text) ≠ lowerL text →
      wordSim (lowerL text) (lowerL (trimChars jt.text)) ≤ 3 / 10 →
      ((lowerL (trimChars jt.text)).take 20).isPrefixOf (lowerL text) = false →
      find_best_match text items used ≠ some j) := by
  have hscore_le : ∀ jt : Item,
      wordSim (lowerL text) (lowerL (trimChars jt.text)) ≤ 3 / 10 →
      ((lowerL (trimChars jt.text)).take 20).isPrefixOf (lowerL text) = false →
      candScore (lowerL text) jt ≤ 3 / 10 := by
    intro jt hws hpfx
    unfold candScore candScoreL
    simp only [hpfx]
    rw [max_le_iff]
    refine ⟨?_, by norm_num⟩
    split_ifs
    · exact hws
    · norm_num
  refine ⟨?_, fun j h => find_best_match_sound text items used j h, ?_, ?_, ?_⟩
  · simp [find_best_match]
  · -- argmax conjunct
    intro hnoex j hres
    obtain ⟨jt, hel, hor⟩ := find_best_match_sound text items used j hres
    have hgt : 3 / 10 < candScore (lowerL text) jt := by
      rcases hor with h | h
      · exact absurd h (hnoex j jt hel)
      · exact h
    by_cases htext : text = []
    · rw [htext] at hres
      simp [find_best_match] at hres
    · unfold find_best_match at hres
      rw [if_neg htext] at hres
      obtain ⟨-, hmax⟩ := findBestAux_max (lowerL text) used
        (fun j => ((items[j]?).elim 0 (candScore (lowerL text))))
        items 0 none 0 le_rfl
        (by intro k kt hk; simp [Nat.zero_add, hk])
        (by
          intro k kt hk hu hT hn
          simp only [Nat.zero_add] at hu
          exact hnoex k kt ⟨hk, hu, hT, hn⟩)
        (by intro j' hj'; simp at hj') j hres
      refine ⟨jt, hel, hgt, ?_⟩
      intro k kt hk
      have := hmax k kt hk.1 (by simpa using hk.2.1) hk.2.2.1 hk.2.2.2
      rw [hel.1] at this
      simpa using this
  · -- none conjunct
    intro htext hres
    unfold find_best_match at hres
    rw [if_neg htext] at hres
    obtain ⟨-, h2⟩ := findBestAux_none (lowerL text) used items 0 none 0
      le_rfl (fun _ => by norm_num) hres
    intro k kt hk
    exact h2 k kt hk.1 (by simpa using hk.2.1) hk.2.2.1 hk.2.2.2
  · -- low-scoring pair conjunct
    intro j jt hel hneq hws hpfx hres
    obtain ⟨jt', hel', hor⟩ := find_best_match_sound text items used j hres
    have hjt : jt' = jt := by
      have := hel.1
      rw [hel'.1] at this
      simpa using this
    rw [hjt] at hor
    rcases hor with h | h
    · exact hneq h
    · exact absurd h (not_lt.mpr (hscore_le jt hws hpfx))

/-- C4 witness. -/
theorem best_match_threshold_witness :
    find_best_match [] [{ type := Kind.P, text := "gamma delta epsilon zeta".data }] ∅ = none ∧
    find_best_match "alpha beta".data
      [{ type := Kind.P, text := "gamma delta epsilon zeta".data }] ∅ ≠ some 0 := by
  have h := best_match_threshold "alpha beta".data
    [{ type := Kind.P, text := "gamma delta epsilon zeta".data }] ∅
  exact ⟨h.1, h.2.2.2.2 0 { type := Kind.P, text := "gamma delta epsilon zeta".data }
    ⟨rfl, by decide, by decide, by decide⟩ (by decide) (by decide) (by decide)⟩

/-- C5: for a non-exact candidate whose lowered item text's first 20
characters are a prefix of the lowered run text, the candidate's effective
score is at least 0.8 and equals the maximum of the 0.8 prefix score and
rule 2's containment score; such a lone candidate is always matched
(0.8 exceeds the 0.3 threshold). -/
theorem prefix_rule_score (text : List Char) (it : Item)
    (hn : trimChars it.text ≠ [])
    (hneq : lowerL (trimChars it.text) ≠ lowerL text)
    (hpfx : ((lowerL (trimChars it.text)).take 20).isPrefixOf (lowerL text) = true) :
    4 / 5 ≤ candScore (lowerL text) it ∧
    candScore (lowerL text) it =
      max (if isSubstr (lowerL (trimChars it.text)) (lowerL text) ||
            isSubstr (lowerL text) (lowerL (trimChars it.text)) then
          wordSim (lowerL text) (lowerL (trimChars it.text)) else 0) (4 / 5) ∧
    (it.type ≠ Kind.Table → text ≠ [] → ∀ used : Finset ℕ, 0 ∉ used →
      find_best_match text [it] used = some 0) := by
  have heval : candScore (lowerL text) it =
      max (if isSubstr (lowerL (trimChars it.text)) (lowerL text) ||
            isSubstr (lowerL text) (lowerL (trimChars it.text)) then
          wordSim (lowerL text) (lowerL (trimChars it.text)) else 0) (4 / 5) := by
    unfold candScore candScoreL
    simp only [hpfx]
    simp
  refine ⟨by rw [heval]; exact le_max_right _ _, heval, ?_⟩
  intro hT htext used hu
  cases hres : find_best_match text [it] used with
  | none =>
    unfold find_best_match at hres
    rw [if_neg htext] at hres
    obtain ⟨-, h2⟩ := findBestAux_none (lowerL text) used [it] 0 none 0
      le_rfl (fun _ => by norm_num) hres
    have := (h2 0 it (by simp) (by simpa using hu) hT hn).1
    rw [heval] at this
    have h45 : (4 : ℚ) / 5 ≤ 3 / 10 := le_trans (le_max_right _ _) this
    norm_num at h45
  | some j =>
    obtain ⟨jt, hel, -⟩ := find_best_match_sound text [it] used j hres
    have hj : j = 0 := by
      match j, hel.1 with
      | 0, _ => rfl
      | j + 1, h => simp at h
    rw [hj]

/-- C5 witness. -/
theorem prefix_rule_score_witness :
    4 / 5 ≤ candScore (lowerL "Introduction to Something Long Enough".data)
      { type := Kind.P, text := "Introduction to Some Other Title".data } ∧
    find_best_match "Introduction to Something Long Enough".data
      [{ type := Kind.P, text := "Introduction to Some Other Title".data }] ∅ = some 0 := by
  have h := prefix_rule_score "Introduction to Something Long Enough".data
    { type := Kind.P, text := "Introduction to Some Other Title".data }
    (by decide) (by decide) (by decide)
  exact ⟨h.1, h.2.2 (by decide) (by decide) ∅ (by decide)⟩

/-! ## Lemmas about the table extractor -/

lemma headerCells_cells (r : List (List Char)) :
    ∀ cell ∈ headerCells r, cell.is_header = true := by
  intro cell hc
  obtain ⟨c, -, hc2⟩ := List.mem_filterMap.mp hc
  by_cases h : c = [] <;> simp [h] at hc2
  rw [← hc2]

lemma bodyCells_cells (r : List (List Char)) :
    ∀ cell ∈ bodyCells r, cell.is_header = false := by
  intro cell hc
  obtain ⟨c, -, hc2⟩ := List.mem_filterMap.mp hc
  by_cases h : c = [] <;> simp [h] at hc2
  rw [← hc2]

lemma headerCells_eq_nil (r : List (List Char)) :
    headerCells r = [] ↔ r.any (fun c => !c.isEmpty) = false := by
  unfold headerCells
  rw [List.filterMap_eq_nil_iff]
  simp only [List.any_eq_false, Bool.not_eq_true]
  constructor
  · intro h c hc
    have := h c hc
    by_cases hc0 : c = [] <;> simp_all
  · intro h c hc
    have := h c hc
    have hc0 : c = [] := by simpa [List.isEmpty_iff] using this
    simp [hc0]

lemma bodyCells_eq_nil (r : List (List Char)) :
    bodyCells r = [] ↔ r.any (fun c => !c.isEmpty) = false := by
  unfold bodyCells
  rw [List.filterMap_eq_nil_iff]
  simp only [List.any_eq_false, Bool.not_eq_true]
  constructor
  · intro h c hc
    have := h c hc
    by_cases hc0 : c = [] <;> simp_all
  · intro h c hc
    have := h c hc
    have hc0 : c = [] := by simpa [List.isEmpty_iff] using this
    simp [hc0]

lemma bodyRows_length (rest : List (List (List Char))) :
    (rest.filterMap (fun r => if bodyCells r = [] then none else some (bodyCells r))).length =
      (rest.filter (fun r => r.any (fun c => !c.isEmpty))).length := by
  induction rest with
  | nil => rfl
  | cons r rs ih =>
    rw [List.filterMap_cons, List.filter_cons]
    by_cases h : bodyCells r = []
    · rw [if_pos h]
      rw [(bodyCells_eq_nil r).mp h]
      simpa using ih
    · rw [if_neg h]
      have : r.any (fun c => !c.isEmpty) = true := by
        cases hb : r.any (fun c => !c.isEmpty)
        · exact absurd ((bodyCells_eq_nil r).mpr hb) h
        · rfl
      rw [this]
      simp [ih]

/-- C6 counterexample: a detection whose first row is entirely empty but
which has two non-empty later rows is emitted as a table with two body
rows and no header cell at all, refuting "every emitted table has at least
one header row". -/
theorem table_extraction_headerless :
    extract_table [[[]], ["a".data], ["b".data]] =
      some [[{ text := "a".data, is_header := false }],
            [{ text := "b".data, is_header := false }]] ∧
    ((extract_table [[[]], ["a".data], ["b".data]]).getD []).all
      (fun row => row.all (fun c => !c.is_header)) = true ∧
    ((extract_table [[[]], ["a".data], ["b".data]]).getD []).length = 2 := by
  exact ⟨by decide, by decide, by decide⟩

/-- C6 (amended): the extractor emits a table iff at least two rows have a
non-empty cell; the emitted matrix has one row per non-empty input row
(hence at least two); when row 0 has a non-empty cell the first emitted
row is the header row (all cells `is_header`) followed by at least one
body row (no cell `is_header`); when row 0 is entirely empty every
emitted cell is a body cell — so a header row is not guaranteed. -/
theorem table_extraction_shape (extracted : List (List (List Char))) :
    (extract_table extracted = none ↔
      (extracted.filter (fun r => r.any (fun c => !c.isEmpty))).length < 2) ∧
    (∀ cells, extract_table extracted = some cells →
      2 ≤ cells.length ∧
      cells.length = (extracted.filter (fun r => r.any (fun c => !c.isEmpty))).length ∧
      (∀ r0 rest, extracted = r0 :: rest → headerCells r0 ≠ [] →
        cells.head? = some (headerCells r0) ∧
        (∀ cell ∈ headerCells r0, cell.is_header = true) ∧
        cells.tail ≠ [] ∧
        (∀ row ∈ cells.tail, ∀ cell ∈ row, cell.is_header = false)) ∧
      (∀ r0 rest, extracted = r0 :: rest → headerCells r0 = [] →
        ∀ row ∈ cells, ∀ cell ∈ row, cell.is_header = false)) := by
  match extracted with
  | [] =>
    refine ⟨by simp [extract_table], ?_⟩
    intro cells hc
    simp [extract_table] at hc
  | r0 :: rest =>
    have hlen :
        ((if headerCells r0 = [] then [] else [headerCells r0]) ++
          rest.filterMap (fun r => if bodyCells r = [] then none else some (bodyCells r))).length =
          ((r0 :: rest).filter (fun r => r.any (fun c => !c.isEmpty))).length := by
      rw [List.length_append, List.filter_cons, bodyRows_length]
      by_cases h : headerCells r0 = []
      · rw [if_pos h, (headerCells_eq_nil r0).mp h]
        simp
      · have : r0.any (fun c => !c.isEmpty) = true := by
          cases hb : r0.any (fun c => !c.isEmpty)
          · exact absurd ((headerCells_eq_nil r0).mpr hb) h
          · rfl
        rw [if_neg h, this]
        simp [Nat.add_comm]
    constructor
    · -- none ↔ kept-row count < 2
      simp only [extract_table]
      by_cases hcond :
          ((if headerCells r0 = [] then [] else [headerCells r0]) ++
            rest.filterMap (fun r => if bodyCells r = [] then none else some (bodyCells r))) ≠ [] ∧
          1 < ((if headerCells r0 = [] then [] else [headerCells r0]) ++
            rest.filterMap (fun r => if bodyCells r = [] then none else some (bodyCells r))).length
      · rw [if_pos hcond]
        obtain ⟨-, h2⟩ := hcond
        refine iff_of_false (by simp) (not_lt.mpr ?_)
        rw [← hlen]
        omega
      · rw [if_neg hcond]
        refine iff_of_true rfl ?_
        rw [← hlen]
        rcases not_and_or.mp hcond with h | h
        · have hnil : ((if headerCells r0 = [] then [] else [headerCells r0]) ++
              rest.filterMap (fun r => if bodyCells r = [] then none else some (bodyCells r))) = [] := by
            by_contra hne
            exact h hne
          rw [hnil]
          simp
        · omega
    · intro cells hc
      simp only [extract_table] at hc
      by_cases hcond :
          ((if headerCells r0 = [] then [] else [headerCells r0]) ++
            rest.filterMap (fun r => if bodyCells r = [] then none else some (bodyCells r))) ≠ [] ∧
          1 < ((if headerCells r0 = [] then [] else [headerCells r0]) ++
            rest.filterMap (fun r => if bodyCells r = [] then none else some (bodyCells r))).length
      · rw [if_pos hcond] at hc
        have hcells : cells =
            (if headerCells r0 = [] then [] else [headerCells r0]) ++
              rest.filterMap (fun r => if bodyCells r = [] then none else some (bodyCells r)) := by
          simpa using hc.symm
        subst hcells
        obtain ⟨-, hgt⟩ := hcond
        have h2 : 2 ≤ ((if headerCells r0 = [] then [] else [headerCells r0]) ++
            rest.filterMap (fun r => if bodyCells r = [] then none else some (bodyCells r))).length := by
          omega
        refine ⟨h2, hlen, ?_, ?_⟩
        · intro r0' rest' heq hH
          cases heq
          rw [if_neg hH] at h2 ⊢
          refine ⟨by simp, headerCells_cells r0, ?_, ?_⟩
          · simp only [List.singleton_append, List.tail_cons]
            intro hnil
            rw [hnil] at h2
            simp at h2
          · simp only [List.singleton_append, List.tail_cons]
            intro row hrow cell hcell
            obtain ⟨r, -, hr⟩ := List.mem_filterMap.mp hrow
            by_cases hb : bodyCells r = [] <;> simp [hb] at hr
            rw [← hr] at hcell
            exact bodyCells_cells r cell hcell
        · intro r0' rest' heq hH
          cases heq
          rw [if_pos hH]
          simp only [List.nil_append]
          intro row hrow cell hcell
          obtain ⟨r, -, hr⟩ := List.mem_filterMap.mp hrow
          by_cases hb : bodyCells r = [] <;> simp [hb] at hr
          rw [← hr] at hcell
          exact bodyCells_cells r cell hcell
      · rw [if_neg hcond] at hc
        simp at hc

/-- C6 witness. -/
theorem table_extraction_shape_witness :
    2 ≤ [[Cell.mk "Name".data true, Cell.mk "Age".data true],
         [Cell.mk "Ann".data false, Cell.mk "30".data false]].length ∧
    [[Cell.mk "Name".data true, Cell.mk "Age".data true],
     [Cell.mk "Ann".data false, Cell.mk "30".data false]].head? =
      some (headerCells ["Name".data, "Age".data]) := by
  have h := (table_extraction_shape [["Name".data, "Age".data], ["Ann".data, "30".data]]).2
    [[Cell.mk "Name".data true, Cell.mk "Age".data true],
     [Cell.mk "Ann".data false, Cell.mk "30".data false]] (by decide)
  exact ⟨h.1, (h.2.2.1 ["Name".data, "Age".data] [["Ann".data, "30".data]] rfl (by decide)).1⟩

/-! ## The layout classifier's kind assignment -/

/-- C7: a block that has lines, lies in no table bbox and has non-empty
stripped text is kept, and its kind is `H1` exactly when the maximal font
size exceeds 14, `H2` exactly when it does not but either the size exceeds
12 or the block is bold, and `P` otherwise. -/
theorem heading_classification (height : ℚ) (tableBoxes : List Quad) (pageNum : ℕ)
    (b : Block) (lines : List (List Span))
    (hl : b.lines = some lines)
    (hnt : tableBoxes.any (fun t => block_in_table b.bbox t) = false)
    (hne : trimChars (blockRawText lines) ≠ []) :
    ∃ it, analyze_layout_block height tableBoxes pageNum b = some it ∧
      it.text = trimChars (blockRawText lines) ∧
      it.page = pageNum + 1 ∧
      (it.type = Kind.H1 ↔ 14 < blockMaxFont lines) ∧
      (it.type = Kind.H2 ↔
        (¬ 14 < blockMaxFont lines ∧ (12 < blockMaxFont lines ∨ blockIsBold lines = true))) ∧
      (it.type = Kind.P ↔
        (¬ 14 < blockMaxFont lines ∧ ¬(12 < blockMaxFont lines ∨ blockIsBold lines = true))) := by
  simp only [analyze_layout_block, hl]
  rw [if_neg (by simp [hnt])]
  rw [if_neg hne]
  refine ⟨_, rfl, rfl, rfl, ?_, ?_, ?_⟩ <;> split_ifs <;> simp_all

/-- C7 witness: "Invoice Total: $500" at font size 16 is classified `H1`;
at size 11, not bold, it is classified `P`. -/
theorem heading_classification_witness :
    (analyze_layout_block 100 [] 0
        { bbox := ⟨0, 0, 10, 10⟩,
          lines := some [[{ text := "Invoice Total: $500".data, size := 16, flags := 0 }]] }).map
      (fun it => it.type) = some Kind.H1 ∧
    (analyze_layout_block 100 [] 0
        { bbox := ⟨0, 0, 10, 10⟩,
          lines := some [[{ text := "Invoice Total: $500".data, size := 11, flags := 0 }]] }).map
      (fun it => it.type) = some Kind.P := by
  have hmax16 : blockMaxFont [[{ text := "Invoice Total: $500".data, size := 16, flags := 0 }]] = 16 := by
    simp only [blockMaxFont, List.foldl]
    rw [max_eq_right (by norm_num : (0 : ℚ) ≤ 16)]
  have hmax11 : blockMaxFont [[{ text := "Invoice Total: $500".data, size := 11, flags := 0 }]] = 11 := by
    simp only [blockMaxFont, List.foldl]
    rw [max_eq_right (by norm_num : (0 : ℚ) ≤ 11)]
  constructor
  · obtain ⟨it, hsome, -, -, hH1, -, -⟩ := heading_classification 100 [] 0
      { bbox := ⟨0, 0, 10, 10⟩,
        lines := some [[{ text := "Invoice Total: $500".data, size := 16, flags := 0 }]] }
      [[{ text := "Invoice Total: $500".data, size := 16, flags := 0 }]]
      rfl rfl (by decide)
    have : it.type = Kind.H1 := hH1.mpr (by rw [hmax16]; norm_num)
    simp [hsome, this]
  · obtain ⟨it, hsome, -, -, -, -, hP⟩ := heading_classification 100 [] 0
      { bbox := ⟨0, 0, 10, 10⟩,
        lines := some [[{ text := "Invoice Total: $500".data, size := 11, flags := 0 }]] }
      [[{ text := "Invoice Total: $500".data, size := 11, flags := 0 }]]
      rfl rfl (by decide)
    have : it.type = Kind.P := by
      refine hP.mpr ⟨by rw [hmax11]; norm_num, ?_⟩
      rw [hmax11]
      simp only [blockIsBold, List.any, Bool.or_false]
      norm_num
    simp [hsome, this]

/-! ## The rewriter's frame property -/

lemma Chain_le (spans : List (ℕ × ℕ)) : ∀ lo hi, Chain lo spans hi → lo ≤ hi := by
  induction spans with
  | nil => intro lo hi h; exact h
  | cons sp rest ih =>
    intro lo hi h
    obtain ⟨h1, h2, h3⟩ := h
    have := ih sp.2 hi h3
    omega

lemma Chain_mono (spans : List (ℕ × ℕ)) (lo lo' hi : ℕ) (h : Chain lo spans hi)
    (hle : lo' ≤ lo) : Chain lo' spans hi := by
  cases spans with
  | nil => exact le_trans hle h
  | cons sp rest =>
    obtain ⟨h1, h2, h3⟩ := h
    exact ⟨le_trans hle h1, h2, h3⟩

lemma drop_eq_slice_append (s : List Char) (lo hi : ℕ) (h1 : lo ≤ hi)
    (h2 : hi ≤ s.length) : s.drop lo = slice s lo hi ++ s.drop hi := by
  unfold slice
  conv_lhs => rw [← List.take_append_drop hi s]
  rw [List.drop_append_of_le_length]
  rw [List.length_take]
  omega

/-- The `BT\\s+.*?ET` scan produces chained, in-bounds, non-overlapping
spans. -/
lemma scanBTET_chain : ∀ (n : ℕ) (l : List Char) (p : ℕ), l.length ≤ n →
    Chain p (scanBTET l p none) (p + l.length) ∧
    (∀ a, a < p → Chain a (scanBTET l p (some a)) (p + l.length)) := by
  intro n
  induction n with
  | zero =>
    intro l p hl
    have hnil : l = [] := List.length_eq_zero.mp (by omega)
    subst hnil
    exact ⟨by simp [scanBTET, Chain], fun a ha => by simp [scanBTET, Chain]; omega⟩
  | succ n ih =>
    intro l p hl
    cases l with
    | nil =>
      exact ⟨by simp [scanBTET, Chain], fun a ha => by simp [scanBTET, Chain]; omega⟩
    | cons c rest =>
      have hrest : rest.length ≤ n := by
        simp only [List.length_cons] at hl
        omega
      have harith : p + (c :: rest).length = p + 1 + rest.length := by
        simp only [List.length_cons]
        omega
      constructor
      · -- outside state
        rw [harith]
        simp only [scanBTET]
        split_ifs with hB
        · exact (ih rest (p + 1) hrest).2 p (by omega)
        · exact Chain_mono _ _ _ _ ((ih rest (p + 1) hrest).1) (by omega)
      · -- inside state
        intro a ha
        rw [harith]
        simp only [scanBTET]
        split_ifs with hE
        · -- emit (a, p + 2)
          obtain ⟨hcE, hcT⟩ := hE
          cases rest with
          | nil => simp [headIs] at hcT
          | cons c2 rest2 =>
            have hc2 : c2 = 'T' := by simpa [headIs] using hcT
            subst hc2
            have hrest2 : rest2.length ≤ n := by
              simp only [List.length_cons] at hrest
              omega
            have hstep : scanBTET ('T' :: rest2) (p + 1) none =
                scanBTET rest2 (p + 1 + 1) none := by
              simp only [scanBTET]
              rw [if_neg (by simp)]
            have htail := (ih rest2 (p + 1 + 1) hrest2).1
            have harith2 : p + 1 + 1 + rest2.length = p + 1 + ('T' :: rest2).length := by
              simp only [List.length_cons]
              omega
            rw [harith2] at htail
            simp only [Chain]
            exact ⟨le_refl a, by omega, by rw [hstep]; exact htail⟩
        · exact (ih rest (p + 1) hrest).2 a (by omega)

lemma findMatches_chain (s : List Char) : Chain 0 (findMatches s) s.length := by
  have := (scanBTET_chain s.length s 0 le_rfl).1
  simpa using this

/-- Gaps and runs around a chained span list reassemble to the original
suffix: no byte is lost or reordered. -/
lemma interleave_reconstruct (s : List Char) : ∀ (spans : List (ℕ × ℕ)) (lo : ℕ),
    Chain lo spans s.length →
    interleaveJoin (gapList s lo spans) (runList s spans) = s.drop lo := by
  intro spans
  induction spans with
  | nil => intro lo h; simp [gapList, runList, interleaveJoin]
  | cons sp rest ih =>
    intro lo h
    obtain ⟨h1, h2, h3⟩ := h
    have hb_le : sp.2 ≤ s.length := Chain_le rest sp.2 s.length h3
    have ih2 := ih sp.2 h3
    simp only [runList] at ih2
    simp only [gapList, runList, List.map_cons, interleaveJoin]
    rw [ih2]
    rw [drop_eq_slice_append s lo sp.1 h1 (by omega),
      drop_eq_slice_append s sp.1 sp.2 (by omega) hb_le]
    simp [List.append_assoc]

/-- `computeMatches` decorates the spans without changing them. -/
lemma computeMatches_fst (s : List Char) (items : List Item) :
    ∀ (spans : List (ℕ × ℕ)) (used : Finset ℕ),
      (computeMatches s items spans used).map Prod.fst = spans := by
  intro spans
  induction spans with
  | nil => intro used; rfl
  | cons sp rest ih =>
    intro used
    simp only [computeMatches]
    cases find_best_match (extract_text_from_bt_et (slice s sp.1 sp.2)) items used with
    | none => simp [ih]
    | some j => simp [ih]

/-- The reassembly loop emits exactly the gaps interleaved with the
(possibly wrapped) runs. -/
lemma rewriteLoop_eq (s : List Char) (items : List Item) :
    ∀ (asg : List ((ℕ × ℕ) × Option ℕ)) (lo : ℕ),
      rewriteLoop s items asg lo =
        interleaveJoin (gapList s lo (asg.map Prod.fst)) (asg.map (wrapRun s items)) := by
  intro asg
  induction asg with
  | nil => intro lo; simp [rewriteLoop, gapList, interleaveJoin]
  | cons x rest ih =>
    intro lo
    obtain ⟨sp, o⟩ := x
    simp only [rewriteLoop, List.map_cons, gapList, interleaveJoin]
    rw [ih sp.2]
    cases o with
    | none => simp only [wrapRun, List.append_assoc]
    | some j => simp only [wrapRun, List.append_assoc]

lemma decode_encode (content : List ℕ) (s : List Char)
    (h : decodeLatin1 content = some s) : encodeLatin1 s = content := by
  unfold decodeLatin1 at h
  split_ifs at h with hall
  · have hs : s = content.map Char.ofNat := by
      have := h
      simp only [Option.some_inj] at this
      exact this.symm
    subst hs
    unfold encodeLatin1
    rw [List.map_map]
    have : ∀ b ∈ content, (Char.toNat ∘ Char.ofNat) b = b := by
      intro b hb
      have hb256 : b < 256 := by
        have := List.all_eq_true.mp hall b hb
        simpa using this
      have hv : b.isValidChar := Or.inl (by omega)
      simp only [Function.comp_apply, Char.ofNat, dif_pos hv, Char.ofNatAux, Char.toNat,
        UInt32.toNat]
      simp [BitVec.toNat_ofNatLt]
    exact List.map_congr_left this |>.trans (List.map_id _)

/-- C9: content bytes that do not decode are returned unchanged — the
rewriter is a safe no-op on that page instead of failing. -/
theorem undecodable_stream_noop (content : List ℕ) (items : List Item)
    (h : decodeLatin1 content = none) :
    insert_marked_content_by_bbox content items = content := by
  unfold insert_marked_content_by_bbox
  rw [h]

/-- C9 witness: the model byte 999 is not latin-1 decodable. -/
theorem undecodable_stream_noop_witness :
    decodeLatin1 [999] = none ∧
    insert_marked_content_by_bbox [999] [] = [999] := by
  exact ⟨by decide, undecodable_stream_noop [999] [] (by decide)⟩

/-- C10: a decodable stream with no `BT…ET` region is returned unchanged:
the rewrite is the identity on streams without text runs. -/
theorem no_text_region_identity (content : List ℕ) (items : List Item) (s : List Char)
    (hdec : decodeLatin1 content = some s) (hnone : findMatches s = []) :
    insert_marked_content_by_bbox content items = content := by
  simp [insert_marked_content_by_bbox, hdec, hnone]

/-- C10 witness. -/
theorem no_text_region_identity_witness :
    decodeLatin1 ("q 10 20 m Q".data.map Char.toNat) = some "q 10 20 m Q".data ∧
    findMatches "q 10 20 m Q".data = [] ∧
    insert_marked_content_by_bbox ("q 10 20 m Q".data.map Char.toNat)
      [{ type := Kind.P, text := "q".data }] = "q 10 20 m Q".data.map Char.toNat := by
  refine ⟨by decide, by decide, ?_⟩
  exact no_text_region_identity _ _ "q 10 20 m Q".data (by decide) (by decide)

/-- C8: the rewriter preserves every original byte in order.  The original
text splits exactly into the gaps around the discovered `BT…ET` spans plus
the spans themselves (first conjunct); the rewritten text consists of the
same gaps and runs in the same order, with only `BDC`/`EMC` wrappers added
around matched runs (second conjunct); and the function's output is the
re-encoding of exactly that reassembly (third conjunct). -/
theorem rewriter_preserves_bytes (content : List ℕ) (items : List Item) (s : List Char)
    (hdec : decodeLatin1 content = some s) :
    interleaveJoin (gapList s 0 (findMatches s)) (runList s (findMatches s)) = s ∧
    rewriteLoop s items (computeMatches s items (findMatches s) ∅) 0 =
      interleaveJoin (gapList s 0 (findMatches s))
        ((computeMatches s items (findMatches s) ∅).map (wrapRun s items)) ∧
    insert_marked_content_by_bbox content items =
      encodeLatin1 (rewriteLoop s items (computeMatches s items (findMatches s) ∅) 0) := by
  refine ⟨?_, ?_, ?_⟩
  · have := interleave_reconstruct s (findMatches s) 0 (findMatches_chain s)
    simpa using this
  · rw [rewriteLoop_eq s items (computeMatches s items (findMatches s) ∅) 0,
      computeMatches_fst]
  · simp only [insert_marked_content_by_bbox, hdec]
    by_cases hms : findMatches s = []
    · rw [if_pos hms, hms]
      simp only [computeMatches, rewriteLoop, List.drop_zero]
      exact (decode_encode content s hdec).symm
    · rw [if_neg hms]

/-- C8 witness. -/
theorem rewriter_preserves_bytes_witness :
    decodeLatin1 ("BT (hi) Tj ET".data.map Char.toNat) = some "BT (hi) Tj ET".data ∧
    interleaveJoin (gapList "BT (hi) Tj ET".data 0 (findMatches "BT (hi) Tj ET".data))
      (runList "BT (hi) Tj ET".data (findMatches "BT (hi) Tj ET".data)) =
      "BT (hi) Tj ET".data := by
  refine ⟨by decide, ?_⟩
  exact (rewriter_preserves_bytes ("BT (hi) Tj ET".data.map Char.toNat) []
    "BT (hi) Tj ET".data (by decide)).1

/-! ## MCID bookkeeping: emitted versus referenced identifiers -/

lemma range'_app (a m n : ℕ) :
    List.range' a m ++ List.range' (a + m) n = List.range' a (m + n) := by
  rw [List.range'_append_1, Nat.add_comm n m]

lemma rowRefs_eq (row : List Cell) : ∀ c, rowRefs row c = List.range' c row.length := by
  induction row with
  | nil => intro c; rfl
  | cons x xs ih =>
    intro c
    simp only [rowRefs, List.length_cons, ih, List.range'_succ]

lemma tableRefs_eq (rows : List (List Cell)) :
    ∀ c, tableRefs rows c = List.range' c ((rows.map List.length).sum) := by
  induction rows with
  | nil => intro c; rfl
  | cons r rs ih =>
    intro c
    simp only [tableRefs, List.map_cons, List.sum_cons, rowRefs_eq, ih]
    rw [range'_app]

lemma buildRefs_eq (items : List Item) :
    ∀ c, buildRefs items c = List.range' c (totalMCIDCount items) := by
  induction items with
  | nil => intro c; rfl
  | cons it rest ih =>
    intro c
    simp only [buildRefs, totalMCIDCount, List.map_cons, List.sum_cons]
    by_cases hT : it.type = Kind.Table
    · rw [if_pos hT, tableRefs_eq, ih]
      have h1 : itemMCIDCount it = (it.table_data.map List.length).sum := by
        simp [itemMCIDCount, hT]
      simp only [totalMCIDCount]
      rw [← h1, range'_app]
    · rw [if_neg hT, ih]
      have h1 : itemMCIDCount it = 1 := by simp [itemMCIDCount, hT]
      simp only [totalMCIDCount]
      rw [h1, Nat.add_comm 1 ((rest.map itemMCIDCount).sum), List.range'_succ]

lemma length_le_sum (items : List Item) (h : ∀ it ∈ items, 1 ≤ itemMCIDCount it) :
    items.length ≤ totalMCIDCount items := by
  induction items with
  | nil => simp [totalMCIDCount]
  | cons it rest ih =>
    simp only [List.length_cons, totalMCIDCount, List.map_cons, List.sum_cons]
    have h1 := h it (by simp)
    have h2 := ih (fun x hx => h x (by simp [hx]))
    simp only [totalMCIDCount] at h2
    omega

/-- Each emitted MCID is a fresh, eligible item index: MCIDs are emitted at
most once and only for present, non-table items. -/
lemma emitted_nodup_mem (s : List Char) (items : List Item) :
    ∀ (spans : List (ℕ × ℕ)) (used : Finset ℕ),
      ((computeMatches s items spans used).filterMap (fun x => x.2)).Nodup ∧
      ∀ j ∈ (computeMatches s items spans used).filterMap (fun x => x.2),
        j ∉ used ∧ ∃ jt, items[j]? = some jt ∧ jt.type ≠ Kind.Table := by
  intro spans
  induction spans with
  | nil => intro used; exact ⟨List.nodup_nil, by simp [computeMatches]⟩
  | cons sp rest ih =>
    intro used
    simp only [computeMatches]
    cases hm : find_best_match (extract_text_from_bt_et (slice s sp.1 sp.2)) items used with
    | none =>
      simp only [List.filterMap_cons_none]
      exact ih used
    | some j =>
      obtain ⟨jt, ⟨hjt, hju, hjT, -⟩, -⟩ :=
        find_best_match_sound (extract_text_from_bt_et (slice s sp.1 sp.2)) items used j hm
      obtain ⟨ihn, ihm⟩ := ih (insert j used)
      simp only [List.filterMap_cons_some]
      constructor
      · refine List.Nodup.cons ?_ ihn
        intro hjmem
        exact (ihm j hjmem).1 (Finset.mem_insert_self j used)
      · intro m hmem
        rcases List.mem_cons.mp hmem with h | h
        · subst h
          exact ⟨hju, jt, hjt, hjT⟩
        · obtain ⟨hmu, hrest⟩ := ihm m h
          exact ⟨fun hmem2 => hmu (Finset.mem_insert_of_mem hmem2), hrest⟩

/-- Every emitted MCID lies among the referenced ones (each item consumes
at least one counter value, so item indices stay below the counter total). -/
lemma emitted_mem_referenced (content : List ℕ) (items : List Item)
    (htab : ∀ it ∈ items, 1 ≤ itemMCIDCount it) :
    ∀ m ∈ emittedMCIDs content items, m ∈ referencedMCIDs items := by
  intro m hm
  cases hdec : decodeLatin1 content with
  | none =>
    simp only [emittedMCIDs, hdec] at hm
    simp at hm
  | some s =>
    simp only [emittedMCIDs, hdec] at hm
    obtain ⟨-, jt, hjt, -⟩ := (emitted_nodup_mem s items (findMatches s) ∅).2 m hm
    have hlt : m < items.length := by
      by_contra hge
      rw [List.getElem?_eq_none (by omega)] at hjt
      exact absurd hjt (by simp)
    unfold referencedMCIDs
    rw [buildRefs_eq, ← List.range_eq_range', List.mem_range]
    calc m < items.length := hlt
      _ ≤ totalMCIDCount items := length_le_sum items htab

/-- C1 counterexample: one paragraph item and a stream with no text run.
The builder references MCID 0 but the rewriter emits nothing, so the two
MCID sets differ — the referenced set has a dangling identifier. -/
theorem mcid_sets_differ :
    (emittedMCIDs ("xyz".data.map Char.toNat)
        [{ type := Kind.P, text := "hello".data }]).toFinset ≠
      (referencedMCIDs [{ type := Kind.P, text := "hello".data }]).toFinset := by
  decide

/-- C1 (amended): the structure elements of a page reference exactly the
MCIDs `0, …, K-1` where `K` counts one MCID per text item and one per
table cell — no gaps, no duplicates; every MCID emitted in the rewritten
stream is among them and is emitted only once; but the two sets need not
be equal: an unmatched item leaves a referenced MCID with no
marked-content range (a dangling reference). -/
theorem mcid_allocation (content : List ℕ) (items : List Item)
    (htab : ∀ it ∈ items, 1 ≤ itemMCIDCount it) :
    referencedMCIDs items = List.range (totalMCIDCount items) ∧
    (referencedMCIDs items).Nodup ∧
    (emittedMCIDs content items).Nodup ∧
    (∀ m ∈ emittedMCIDs content items, m ∈ referencedMCIDs items) := by
  have href : referencedMCIDs items = List.range (totalMCIDCount items) := by
    unfold referencedMCIDs
    rw [buildRefs_eq, List.range_eq_range']
  refine ⟨href, by rw [href]; exact List.nodup_range _, ?_,
    emitted_mem_referenced content items htab⟩
  cases hdec : decodeLatin1 content with
  | none => simp [emittedMCIDs, hdec]
  | some s =>
    simp only [emittedMCIDs, hdec]
    exact (emitted_nodup_mem s items (findMatches s) ∅).1

/-- C1 witness. -/
theorem mcid_allocation_witness :
    referencedMCIDs [{ type := Kind.P, text := "hello".data },
        { type := Kind.Table, table_data := [[Cell.mk "h".data true], [Cell.mk "b".data false]] }] =
      List.range 3 ∧
    (emittedMCIDs ("xyz".data.map Char.toNat)
        [{ type := Kind.P, text := "hello".data },
         { type := Kind.Table, table_data := [[Cell.mk "h".data true], [Cell.mk "b".data false]] }]).Nodup := by
  have h := mcid_allocation ("xyz".data.map Char.toNat)
    [{ type := Kind.P, text := "hello".data },
     { type := Kind.Table, table_data := [[Cell.mk "h".data true], [Cell.mk "b".data false]] }]
    (by decide)
  exact ⟨h.1, h.2.2.1⟩

/-- C2 counterexample: a page where the single item is matched exactly.
The emitted set equals the referenced set, so it is not a *strict*
subset. -/
theorem emitted_not_strict :
    (emittedMCIDs ("BT (hello) Tj ET".data.map Char.toNat)
        [{ type := Kind.P, text := "hello".data }]).toFinset =
      (referencedMCIDs [{ type := Kind.P, text := "hello".data }]).toFinset ∧
    ¬ ((emittedMCIDs ("BT (hello) Tj ET".data.map Char.toNat)
        [{ type := Kind.P, text := "hello".data }]).toFinset ⊂
      (referencedMCIDs [{ type := Kind.P, text := "hello".data }]).toFinset) := by
  constructor
  · decide
  · decide

/-- C2 (amended): the set of MCIDs emitted in the rewritten stream is a
subset — not necessarily strict — of the MCIDs referenced by the page's
structure elements, and no MCID is referenced by two structure elements of
the same page. -/
theorem emitted_subset_referenced (content : List ℕ) (items : List Item)
    (htab : ∀ it ∈ items, 1 ≤ itemMCIDCount it) :
    (emittedMCIDs content items).toFinset ⊆ (referencedMCIDs items).toFinset ∧
    (referencedMCIDs items).Nodup := by
  constructor
  · intro m hm
    rw [List.mem_toFinset] at hm ⊢
    exact emitted_mem_referenced content items htab m hm
  · unfold referencedMCIDs
    rw [buildRefs_eq, ← List.range_eq_range']
    exact List.nodup_range _

/-- C2 witness. -/
theorem emitted_subset_referenced_witness :
    (emittedMCIDs ("BT (hi) Tj ET".data.map Char.toNat)
        [{ type := Kind.P, text := "hi".data }]).toFinset ⊆
      (referencedMCIDs [{ type := Kind.P, text := "hi".data }]).toFinset ∧
    (referencedMCIDs [{ type := Kind.P, text := "hi".data }]).Nodup := by
  exact emitted_subset_referenced ("BT (hi) Tj ET".data.map Char.toNat)
    [{ type := Kind.P, text := "hi".data }] (by decide)

end Autotag
